import Mathlib

/-!
Verification of the Mandelbrot PPM renderer (mandelbrot.py).

The script maps each pixel of a WIDTH x HEIGHT raster to a point of the
complex plane, runs the escape-time iteration z_0 = 0, z_{k+1} = z_k^2 + c,
and writes a P6 image: an ASCII header followed by three identical grayscale
bytes per pixel, rows outer, columns inner.

Embedding choices:
- Python's arbitrary-precision ints and float/complex arithmetic are embedded
  over the exact rationals; a complex value is a pair of rationals Cx.
- The magnitude test abs(zn) > 2 of the source is embedded literally as
  2 < Complex.abs (over the real complex numbers); it is decidable because
  over exact arithmetic it is equivalent to 4 < normSq (lemma escapes_iff,
  the equivalence the spec itself notes in section 4.2).
- Python raises ZeroDivisionError when map_inclusive_ranges divides by zero,
  so the embedded mapper returns an Option, none modelling the exception,
  which the render loop propagates (whole run fails, spec section 7).
- f.write calls append to a byte list; the produced file is the final list.
  A byte is modelled as a natural number; the fact that every emitted value
  fits in a byte is one of the claims proved below.
-/

/-- Image width in pixels (constant WIDTH of the script). -/
def WIDTH : ℕ := 2048

/-- Image height in pixels (constant HEIGHT of the script). -/
def HEIGHT : ℕ := 2048

/-- Lower bound of the real axis (constant X_MIN of the script). -/
def X_MIN : ℚ := -2

/-- Upper bound of the real axis (constant X_MAX of the script). -/
def X_MAX : ℚ := 1

/-- Lower bound of the imaginary axis (constant Y_MIN of the script). -/
def Y_MIN : ℚ := -1.5

/-- Upper bound of the imaginary axis (constant Y_MAX of the script). -/
def Y_MAX : ℚ := 1.5

/-- Iteration budget (constant MAX_ITERATIONS of the script). -/
def MAX_ITERATIONS : ℕ := 255

/-- A complex number with exact rational components, embedding Python's
complex values x + y*1j. -/
structure Cx where
  re : ℚ
  im : ℚ
  deriving DecidableEq, Repr

/-- Complex addition. -/
def Cx.add (z w : Cx) : Cx := ⟨z.re + w.re, z.im + w.im⟩

/-- Complex multiplication; `zn ** 2` of the source is Cx.mul zn zn. -/
def Cx.mul (z w : Cx) : Cx := ⟨z.re * w.re - z.im * w.im, z.re * w.im + z.im * w.re⟩

/-- Squared magnitude, a rational. -/
def Cx.normSq (z : Cx) : ℚ := z.re * z.re + z.im * z.im

/-- The embedded value as a genuine complex number. -/
def Cx.toComplex (z : Cx) : ℂ := ⟨(z.re : ℝ), (z.im : ℝ)⟩

/-- The test `abs(zn) > 2` of the source, on the real complex numbers. -/
def escapes (z : Cx) : Prop := 2 < Complex.abs (Cx.toComplex z)

theorem normSq_toComplex (z : Cx) :
    Complex.normSq (Cx.toComplex z) = ((Cx.normSq z : ℚ) : ℝ) := by
  simp [Cx.toComplex, Cx.normSq, Complex.normSq_mk]

/-- Over exact arithmetic, the magnitude test of the source is the
squared-magnitude test against 4 (the reformulation the spec licenses). -/
theorem escapes_iff (z : Cx) : escapes z ↔ 4 < Cx.normSq z := by
  have habs : Complex.abs (Cx.toComplex z) * Complex.abs (Cx.toComplex z)
      = ((Cx.normSq z : ℚ) : ℝ) := by
    rw [Complex.mul_self_abs, normSq_toComplex]
  have hnonneg : 0 ≤ Complex.abs (Cx.toComplex z) := AbsoluteValue.nonneg _ _
  constructor
  · intro h
    have h2 : (2 : ℝ) < Complex.abs (Cx.toComplex z) := h
    have h4 : (4 : ℝ) < ((Cx.normSq z : ℚ) : ℝ) := by nlinarith
    exact_mod_cast h4
  · intro h
    have h4 : (4 : ℝ) < ((Cx.normSq z : ℚ) : ℝ) := by exact_mod_cast h
    show (2 : ℝ) < Complex.abs (Cx.toComplex z)
    nlinarith

instance escapesDecidable (z : Cx) : Decidable (escapes z) :=
  decidable_of_iff (4 < Cx.normSq z) (escapes_iff z).symm

/-- The body of iterate's `for n in range(N)` loop: test `abs(zn) > 2` on the
current value, return n on escape, otherwise update zn to zn*zn + c; when the
fuel (the remaining loop indices) runs out, return N as the line after the
loop does. -/
def iterateLoop (N : ℕ) (c : Cx) : ℕ → Cx → ℕ → ℕ
  | 0, _, _ => N
  | fuel + 1, zn, n =>
    if escapes zn then n
    else iterateLoop N c fuel (Cx.add (Cx.mul zn zn) c) (n + 1)

/-- The function iterate of the script, with the iteration budget N (the
global MAX_ITERATIONS it reads) passed explicitly. -/
def iterate (N : ℕ) (c : Cx) : ℕ := iterateLoop N c N ⟨0, 0⟩ 0

/-- The orbit of the quadratic recurrence: orbit c n is the value zn holds at
the start of loop index n, so orbit c 0 = 0 and orbit c (k+1) = (orbit c k)^2 + c. -/
def orbit (c : Cx) : ℕ → Cx
  | 0 => ⟨0, 0⟩
  | k + 1 => Cx.add (Cx.mul (orbit c k) (orbit c k)) c

/-- The function map_inclusive_ranges of the script. The division raises
ZeroDivisionError in Python when src_max - src_min = 0; none models that. -/
def map_inclusive_ranges (src_min src_max dest_min dest_max src_val : ℚ) : Option ℚ :=
  if src_max - src_min = 0 then none
  else some ((dest_max - dest_min) * ((src_val - src_min) / (src_max - src_min)) + dest_min)

/-- The three bytes main writes for one pixel (lines 39 to 44): [0,0,0] when
the escape count equals the budget N, else the count replicated three times. -/
def pixelBytes (N : ℕ) (c : Cx) : List ℕ :=
  let iters := iterate N c
  if iters = N then [0, 0, 0]
  else [iters, iters, iters]

/-- One inner-loop step of main: map the column and row indices to plane
coordinates, build c, and produce the pixel's bytes. -/
def renderPixel (W H : ℕ) (xmin xmax ymin ymax : ℚ) (N : ℕ) (col row : ℕ) :
    Option (List ℕ) := do
  let x ← map_inclusive_ranges 0 ((W : ℚ) - 1) xmin xmax (col : ℚ)
  let y ← map_inclusive_ranges 0 ((H : ℚ) - 1) ymin ymax (row : ℚ)
  pure (pixelBytes N ⟨x, y⟩)

/-- The inner `for col in range(WIDTH)` loop of main over the given list of
column indices, concatenating the bytes written for each pixel. -/
def colsLoop (W H : ℕ) (xmin xmax ymin ymax : ℚ) (N row : ℕ) :
    List ℕ → Option (List ℕ)
  | [] => some []
  | col :: rest => do
    let px ← renderPixel W H xmin xmax ymin ymax N col row
    let tail ← colsLoop W H xmin xmax ymin ymax N row rest
    pure (px ++ tail)

/-- The outer `for row in range(HEIGHT)` loop of main over the given list of
row indices. -/
def rowsLoop (W H : ℕ) (xmin xmax ymin ymax : ℚ) (N : ℕ) :
    List ℕ → Option (List ℕ)
  | [] => some []
  | row :: rest => do
    let rowBytes ← colsLoop W H xmin xmax ymin ymax N row (List.range W)
    let tail ← rowsLoop W H xmin xmax ymin ymax N rest
    pure (rowBytes ++ tail)

/-- The ASCII bytes of the header string written first by main:
bytes of the f-string with WIDTH and HEIGHT substituted. -/
def header (W H : ℕ) : List ℕ :=
  (("P6 " ++ toString W ++ " " ++ toString H ++ " 255 ").toList).map Char.toNat

/-- The whole byte stream main writes: the header then the pixel bytes, rows
outer top to bottom, columns inner left to right; none when the run fails with
a numeric error. -/
def render (W H : ℕ) (xmin xmax ymin ymax : ℚ) (N : ℕ) : Option (List ℕ) := do
  let body ← rowsLoop W H xmin xmax ymin ymax N (List.range H)
  pure (header W H ++ body)

/-- The byte stream the script as shipped produces. -/
def output : Option (List ℕ) :=
  render WIDTH HEIGHT X_MIN X_MAX Y_MIN Y_MAX MAX_ITERATIONS

/-- The output filename of main, with the already-formatted text of the four
plane bounds passed as strings (Python formats them with repr of int or
float; that numeric formatting is outside this development, the structure of
the name is what is modelled). -/
def fileName (W H : ℕ) (xminS xmaxS yminS ymaxS : String) (N : ℕ) : String :=
  "mandelbrot_" ++ toString W ++ "x" ++ toString H ++ "_" ++ xminS ++ "_"
    ++ xmaxS ++ "_" ++ yminS ++ "_" ++ ymaxS ++ "_" ++ toString N ++ ".ppm"

/-- The filename the script as shipped uses. -/
def outputFileName : String :=
  fileName WIDTH HEIGHT ("-2") ("1") ("-1.5") ("1.5") MAX_ITERATIONS

theorem not_escapes_zero : ¬ escapes ⟨0, 0⟩ := by
  rw [escapes_iff]
  norm_num [Cx.normSq]

theorem iterateLoop_step_escaped {N : ℕ} {c zn : Cx} {fuel n : ℕ}
    (h : escapes zn) : iterateLoop N c (fuel + 1) zn n = n := by
  simp [iterateLoop, h]

theorem iterateLoop_step_kept {N : ℕ} {c zn : Cx} {fuel n : ℕ}
    (h : ¬ escapes zn) :
    iterateLoop N c (fuel + 1) zn n
      = iterateLoop N c fuel (Cx.add (Cx.mul zn zn) c) (n + 1) := by
  simp [iterateLoop, h]

/-- The first loop update turns zn = 0 into c. -/
theorem zero_step (c : Cx) : Cx.add (Cx.mul ⟨0, 0⟩ ⟨0, 0⟩) c = c := by
  cases c
  simp [Cx.add, Cx.mul]

theorem orbit_one (c : Cx) : orbit c 1 = c := zero_step c

/-- If the point c itself escapes, the loop returns at index 1:
index 0 tests zn = 0, which never escapes. -/
theorem iterate_of_escapes {c : Cx} (h : escapes c) :
    iterate MAX_ITERATIONS c = 1 := by
  rw [iterate, MAX_ITERATIONS, show (255 : ℕ) = 253 + 1 + 1 from rfl,
    iterateLoop_step_kept not_escapes_zero, zero_step,
    iterateLoop_step_escaped h]

theorem escapes_ten : escapes ⟨10, 0⟩ := by
  rw [escapes_iff]
  norm_num [Cx.normSq]

theorem iterate_ten : iterate MAX_ITERATIONS ⟨10, 0⟩ = 1 :=
  iterate_of_escapes escapes_ten

/-- The orbit of c = 0 is constantly 0. -/
theorem orbit_const_zero : ∀ m, orbit ⟨0, 0⟩ m = ⟨0, 0⟩ := by
  intro m
  induction m with
  | zero => rfl
  | succ m ih =>
    show Cx.add (Cx.mul (orbit ⟨0, 0⟩ m) (orbit ⟨0, 0⟩ m)) ⟨0, 0⟩ = ⟨0, 0⟩
    rw [ih]
    simp [Cx.add, Cx.mul]

/-- If no orbit value up to index N-1 escapes, the loop falls through and
returns N. -/
theorem iterateLoop_no_escape (N : ℕ) (c : Cx) :
    ∀ fuel n, fuel + n = N → (∀ m, n ≤ m → m < N → ¬ escapes (orbit c m)) →
      iterateLoop N c fuel (orbit c n) n = N := by
  intro fuel
  induction fuel with
  | zero =>
    intro n _ _
    simp [iterateLoop]
  | succ fuel ih =>
    intro n h hno
    have hn : n < N := by omega
    rw [iterateLoop_step_kept (hno n le_rfl hn),
      show Cx.add (Cx.mul (orbit c n) (orbit c n)) c = orbit c (n + 1) from rfl]
    exact ih (n + 1) (by omega) (fun m hm1 hm2 => hno m (by omega) hm2)

/-- If k < N is the least orbit index that escapes, the loop returns k. -/
theorem iterateLoop_finds_least (N : ℕ) (c : Cx) (k : ℕ) (hkN : k < N)
    (hesc : escapes (orbit c k)) (hmin : ∀ m, m < k → ¬ escapes (orbit c m)) :
    ∀ fuel n, fuel + n = N → n ≤ k → iterateLoop N c fuel (orbit c n) n = k := by
  intro fuel
  induction fuel with
  | zero =>
    intro n h hk
    omega
  | succ fuel ih =>
    intro n h hk
    by_cases hnk : n = k
    · subst hnk
      rw [iterateLoop_step_escaped hesc]
    · rw [iterateLoop_step_kept (hmin n (by omega)),
        show Cx.add (Cx.mul (orbit c n) (orbit c n)) c = orbit c (n + 1) from rfl]
      exact ih (n + 1) (by omega) (by omega)

/-- The loop never returns more than N. -/
theorem iterateLoop_le (N : ℕ) (c : Cx) :
    ∀ fuel n zn, fuel + n = N → iterateLoop N c fuel zn n ≤ N := by
  intro fuel
  induction fuel with
  | zero =>
    intro n zn _
    simp [iterateLoop]
  | succ fuel ih =>
    intro n zn h
    rw [iterateLoop]
    by_cases hz : escapes zn
    · simp [hz]
      omega
    · simp [hz]
      exact ih (n + 1) _ (by omega)

theorem iterate_le (N : ℕ) (c : Cx) : iterate N c ≤ N :=
  iterateLoop_le N c N 0 ⟨0, 0⟩ (by omega)

/-- Shared helper: the escape count at the origin is the full budget. -/
theorem iterate_origin : iterate MAX_ITERATIONS ⟨0, 0⟩ = MAX_ITERATIONS := by
  rw [iterate, show (⟨0, 0⟩ : Cx) = orbit ⟨0, 0⟩ 0 from rfl]
  refine iterateLoop_no_escape MAX_ITERATIONS ⟨0, 0⟩ MAX_ITERATIONS 0 (by omega) ?_
  intro m _ _
  rw [orbit_const_zero m]
  exact not_escapes_zero

/-- Claim C1: iterate(c) is the smallest loop index n < MAX_ITERATIONS at
which the orbit z_0 = 0, z_{k+1} = z_k^2 + c satisfies abs z_n > 2 (the test
is applied to the value before that step's update), and MAX_ITERATIONS when
no index below MAX_ITERATIONS escapes. -/
theorem iterate_returns_least_escape (c : Cx) :
    (iterate MAX_ITERATIONS c = MAX_ITERATIONS ∧
       ∀ m, m < MAX_ITERATIONS → ¬ escapes (orbit c m)) ∨
    (iterate MAX_ITERATIONS c < MAX_ITERATIONS ∧
       escapes (orbit c (iterate MAX_ITERATIONS c)) ∧
       ∀ m, m < iterate MAX_ITERATIONS c → ¬ escapes (orbit c m)) := by
  by_cases hex : ∃ n, n < MAX_ITERATIONS ∧ escapes (orbit c n)
  · right
    obtain ⟨n0, hn0, hesc0⟩ := hex
    have hex' : ∃ n, escapes (orbit c n) := ⟨n0, hesc0⟩
    have hk : escapes (orbit c (Nat.find hex')) := Nat.find_spec hex'
    have hmin : ∀ m, m < Nat.find hex' → ¬ escapes (orbit c m) :=
      fun m hm => Nat.find_min hex' hm
    have hkN : Nat.find hex' < MAX_ITERATIONS :=
      lt_of_le_of_lt (Nat.find_min' hex' hesc0) hn0
    have hiter : iterate MAX_ITERATIONS c = Nat.find hex' := by
      rw [iterate, show (⟨0, 0⟩ : Cx) = orbit c 0 from rfl]
      exact iterateLoop_finds_least MAX_ITERATIONS c (Nat.find hex') hkN hk hmin
        MAX_ITERATIONS 0 (by omega) (Nat.zero_le _)
    rw [hiter]
    exact ⟨hkN, hk, hmin⟩
  · left
    push_neg at hex
    constructor
    · rw [iterate, show (⟨0, 0⟩ : Cx) = orbit c 0 from rfl]
      exact iterateLoop_no_escape MAX_ITERATIONS c MAX_ITERATIONS 0 (by omega)
        (fun m _ hm2 => hex m hm2)
    · exact fun m hm => hex m hm

/-- Witness for C1 at c = 10: the loop stops strictly below the budget at an
escaping orbit value. -/
theorem iterate_returns_least_escape_witness :
    iterate MAX_ITERATIONS ⟨10, 0⟩ < MAX_ITERATIONS ∧
      escapes (orbit ⟨10, 0⟩ (iterate MAX_ITERATIONS ⟨10, 0⟩)) := by
  rcases iterate_returns_least_escape ⟨10, 0⟩ with ⟨_, h2⟩ | ⟨h1, h2, _⟩
  · exfalso
    refine h2 1 (by norm_num [MAX_ITERATIONS]) ?_
    rw [orbit_one]
    exact escapes_ten
  · exact ⟨h1, h2⟩

/-- Claim C6 counterexample: c = 10 has magnitude above 2, yet iterate
returns 1, not 0 as the claim states. -/
theorem far_point_count_counterexample :
    2 < Complex.abs (Cx.toComplex ⟨10, 0⟩) ∧
      iterate MAX_ITERATIONS ⟨10, 0⟩ = 1 ∧
      iterate MAX_ITERATIONS ⟨10, 0⟩ ≠ 0 := by
  refine ⟨escapes_ten, iterate_ten, ?_⟩
  rw [iterate_ten]
  omega

/-- Claim C6 as amended: for every c with abs c > 2, iterate(c) returns 1
(index 0 tests z_0 = 0, which does not escape; index 1 tests z_1 = c). -/
theorem far_point_count (c : Cx) (h : 2 < Complex.abs (Cx.toComplex c)) :
    iterate MAX_ITERATIONS c = 1 :=
  iterate_of_escapes h

/-- Witness for amended C6 at c = 3. -/
theorem far_point_count_witness :
    2 < Complex.abs (Cx.toComplex ⟨3, 0⟩) ∧ iterate MAX_ITERATIONS ⟨3, 0⟩ = 1 := by
  have h : escapes ⟨3, 0⟩ := by
    rw [escapes_iff]
    norm_num [Cx.normSq]
  exact ⟨h, far_point_count ⟨3, 0⟩ h⟩

/-- Claim C7: at c = 0 the orbit never exceeds magnitude 2, the loop
completes without early return, and iterate returns MAX_ITERATIONS. -/
theorem iterate_at_origin :
    iterate MAX_ITERATIONS ⟨0, 0⟩ = MAX_ITERATIONS ∧
      ∀ m, ¬ escapes (orbit ⟨0, 0⟩ m) := by
  refine ⟨iterate_origin, fun m => ?_⟩
  rw [orbit_const_zero m]
  exact not_escapes_zero

/-- Claim C2: the three bytes of a pixel are (0,0,0) exactly when the escape
count equals MAX_ITERATIONS, else (n,n,n) with n the escape count, so the
three channels always agree. -/
theorem pixel_intensity_spec (c : Cx) :
    (iterate MAX_ITERATIONS c = MAX_ITERATIONS →
       pixelBytes MAX_ITERATIONS c = [0, 0, 0]) ∧
    (iterate MAX_ITERATIONS c ≠ MAX_ITERATIONS →
       pixelBytes MAX_ITERATIONS c
         = [iterate MAX_ITERATIONS c, iterate MAX_ITERATIONS c,
            iterate MAX_ITERATIONS c]) ∧
    ∃ g, pixelBytes MAX_ITERATIONS c = [g, g, g] := by
  refine ⟨fun h => by simp [pixelBytes, h], fun h => by simp [pixelBytes, h], ?_⟩
  by_cases h : iterate MAX_ITERATIONS c = MAX_ITERATIONS
  · exact ⟨0, by simp [pixelBytes, h]⟩
  · exact ⟨iterate MAX_ITERATIONS c, by simp [pixelBytes, h]⟩

/-- Witness for C2: an interior point gives black, an escaping point gives
its count replicated. -/
theorem pixel_intensity_spec_witness :
    pixelBytes MAX_ITERATIONS ⟨0, 0⟩ = [0, 0, 0] ∧
      pixelBytes MAX_ITERATIONS ⟨10, 0⟩ = [1, 1, 1] := by
  constructor
  · exact (pixel_intensity_spec ⟨0, 0⟩).1 iterate_origin
  · have hne : iterate MAX_ITERATIONS ⟨10, 0⟩ ≠ MAX_ITERATIONS := by
      rw [iterate_ten, MAX_ITERATIONS]
      omega
    rw [(pixel_intensity_spec ⟨10, 0⟩).2.1 hne, iterate_ten]

/-- Claim C5: mapping the inclusive index range [0, n-1] onto [A, B] sends
the first index to exactly A and the last to exactly B. -/
theorem map_endpoints (n : ℕ) (h : 1 < n) (A B : ℚ) :
    map_inclusive_ranges 0 ((n : ℚ) - 1) A B 0 = some A ∧
    map_inclusive_ranges 0 ((n : ℚ) - 1) A B ((n : ℚ) - 1) = some B := by
  have h1 : (1 : ℚ) < (n : ℚ) := by exact_mod_cast h
  have h2 : ((n : ℚ) - 1) ≠ 0 := by
    intro hc
    rw [sub_eq_zero] at hc
    rw [hc] at h1
    exact lt_irrefl _ h1
  have hne : ((n : ℚ) - 1) - 0 ≠ 0 := by
    rw [sub_zero]
    exact h2
  constructor
  · simp [map_inclusive_ranges, sub_zero, h2]
  · rw [map_inclusive_ranges, if_neg hne]
    have hdd : (((n : ℚ) - 1) - 0) / (((n : ℚ) - 1) - 0) = 1 := div_self hne
    rw [hdd, mul_one]
    simp

/-- Witness for C5 with n = 2, A = 0, B = 7. -/
theorem map_endpoints_witness :
    (1 : ℕ) < 2 ∧
      (map_inclusive_ranges 0 (((2 : ℕ) : ℚ) - 1) 0 7 0 = some 0 ∧
       map_inclusive_ranges 0 (((2 : ℕ) : ℚ) - 1) 0 7 (((2 : ℕ) : ℚ) - 1)
         = some 7) :=
  ⟨by omega, map_endpoints 2 (by omega) 0 7⟩

/-- Claim C8: a 1 x 1 image makes the mapper divide by zero: the run fails
(none, the embedded ZeroDivisionError) instead of producing bytes, and every
call of map_inclusive_ranges with src_max = src_min returns no value. -/
theorem degenerate_dimension_fails :
    (∀ (xmin xmax ymin ymax : ℚ) (N : ℕ),
       render 1 1 xmin xmax ymin ymax N = none) ∧
    (∀ smin dmin dmax v : ℚ,
       map_inclusive_ranges smin smin dmin dmax v = none) := by
  constructor
  · intro xmin xmax ymin ymax N
    norm_num [render, rowsLoop, colsLoop, renderPixel, map_inclusive_ranges,
      List.range_succ]
  · intro smin dmin dmax v
    simp [map_inclusive_ranges]

/-- Claim C9: rendering is a pure function of the parameters; two runs with
identical parameters give byte-identical streams and the same filename. -/
theorem renderer_deterministic (W H W2 H2 : ℕ)
    (xmin xmax ymin ymax xmin2 xmax2 ymin2 ymax2 : ℚ) (N N2 : ℕ)
    (s1 s2 s3 s4 t1 t2 t3 t4 : String)
    (hW : W = W2) (hH : H = H2) (hx1 : xmin = xmin2) (hx2 : xmax = xmax2)
    (hy1 : ymin = ymin2) (hy2 : ymax = ymax2) (hN : N = N2)
    (hs1 : s1 = t1) (hs2 : s2 = t2) (hs3 : s3 = t3) (hs4 : s4 = t4) :
    render W H xmin xmax ymin ymax N = render W2 H2 xmin2 xmax2 ymin2 ymax2 N2 ∧
      fileName W H s1 s2 s3 s4 N = fileName W2 H2 t1 t2 t3 t4 N2 := by
  subst hW hH hx1 hx2 hy1 hy2 hN hs1 hs2 hs3 hs4
  exact ⟨rfl, rfl⟩

/-- Witness for C9 at the shipped parameters. -/
theorem renderer_deterministic_witness :
    render WIDTH HEIGHT X_MIN X_MAX Y_MIN Y_MAX MAX_ITERATIONS
        = render WIDTH HEIGHT X_MIN X_MAX Y_MIN Y_MAX MAX_ITERATIONS ∧
      fileName WIDTH HEIGHT ("-2") ("1") ("-1.5") ("1.5") MAX_ITERATIONS
        = fileName WIDTH HEIGHT ("-2") ("1") ("-1.5") ("1.5") MAX_ITERATIONS :=
  renderer_deterministic WIDTH HEIGHT WIDTH HEIGHT X_MIN X_MAX Y_MIN Y_MAX
    X_MIN X_MAX Y_MIN Y_MAX MAX_ITERATIONS MAX_ITERATIONS
    ("-2") ("1") ("-1.5") ("1.5") ("-2") ("1") ("-1.5") ("1.5")
    rfl rfl rfl rfl rfl rfl rfl rfl rfl rfl rfl

/-- The value map_inclusive_ranges computes when its division is defined. -/
def mapTotal (src_min src_max dest_min dest_max src_val : ℚ) : ℚ :=
  (dest_max - dest_min) * ((src_val - src_min) / (src_max - src_min)) + dest_min

theorem map_inclusive_ranges_eq {a b p q v : ℚ} (h : b - a ≠ 0) :
    map_inclusive_ranges a b p q v = some (mapTotal a b p q v) := by
  simp [map_inclusive_ranges, mapTotal, h]

/-- The complex sample point of pixel (col, row). -/
def pixelPoint (W H : ℕ) (xmin xmax ymin ymax : ℚ) (col row : ℕ) : Cx :=
  ⟨mapTotal 0 ((W : ℚ) - 1) xmin xmax (col : ℚ),
   mapTotal 0 ((H : ℚ) - 1) ymin ymax (row : ℚ)⟩

theorem renderPixel_eq {W H : ℕ} {xmin xmax ymin ymax : ℚ} {N : ℕ}
    (hW : ((W : ℚ) - 1) ≠ 0) (hH : ((H : ℚ) - 1) ≠ 0) (col row : ℕ) :
    renderPixel W H xmin xmax ymin ymax N col row
      = some (pixelBytes N (pixelPoint W H xmin xmax ymin ymax col row)) := by
  have hW0 : ((W : ℚ) - 1) - 0 ≠ 0 := by rw [sub_zero]; exact hW
  have hH0 : ((H : ℚ) - 1) - 0 ≠ 0 := by rw [sub_zero]; exact hH
  simp [renderPixel, map_inclusive_ranges_eq hW0, map_inclusive_ranges_eq hH0,
    pixelPoint]

theorem colsLoop_eq {W H : ℕ} {xmin xmax ymin ymax : ℚ} {N : ℕ}
    (hW : ((W : ℚ) - 1) ≠ 0) (hH : ((H : ℚ) - 1) ≠ 0) (row : ℕ) :
    ∀ cols, colsLoop W H xmin xmax ymin ymax N row cols
      = some (cols.flatMap fun col =>
          pixelBytes N (pixelPoint W H xmin xmax ymin ymax col row)) := by
  intro cols
  induction cols with
  | nil => rfl
  | cons col rest ih =>
    simp [colsLoop, renderPixel_eq hW hH, ih]

theorem rowsLoop_eq {W H : ℕ} {xmin xmax ymin ymax : ℚ} {N : ℕ}
    (hW : ((W : ℚ) - 1) ≠ 0) (hH : ((H : ℚ) - 1) ≠ 0) :
    ∀ rows, rowsLoop W H xmin xmax ymin ymax N rows
      = some (rows.flatMap fun row => (List.range W).flatMap fun col =>
          pixelBytes N (pixelPoint W H xmin xmax ymin ymax col row)) := by
  intro rows
  induction rows with
  | nil => rfl
  | cons row rest ih =>
    simp [rowsLoop, colsLoop_eq hW hH, ih]

/-- The pixel-data section of the stream: all pixel bytes, rows outer,
columns inner. -/
def bodyList (W H : ℕ) (xmin xmax ymin ymax : ℚ) (N : ℕ) : List ℕ :=
  (List.range H).flatMap fun row => (List.range W).flatMap fun col =>
    pixelBytes N (pixelPoint W H xmin xmax ymin ymax col row)

theorem render_eq {W H : ℕ} {xmin xmax ymin ymax : ℚ} {N : ℕ}
    (hW : ((W : ℚ) - 1) ≠ 0) (hH : ((H : ℚ) - 1) ≠ 0) :
    render W H xmin xmax ymin ymax N
      = some (header W H ++ bodyList W H xmin xmax ymin ymax N) := by
  simp [render, rowsLoop_eq hW hH, bodyList]

theorem width_q_ne : ((WIDTH : ℚ) - 1) ≠ 0 := by norm_num [WIDTH]

theorem height_q_ne : ((HEIGHT : ℚ) - 1) ≠ 0 := by norm_num [HEIGHT]

/-- The shipped run succeeds and its stream is the header followed by the
pixel data. -/
theorem output_eq :
    output = some (header WIDTH HEIGHT
      ++ bodyList WIDTH HEIGHT X_MIN X_MAX Y_MIN Y_MAX MAX_ITERATIONS) :=
  render_eq width_q_ne height_q_ne

theorem pixelBytes_length (N : ℕ) (c : Cx) : (pixelBytes N c).length = 3 := by
  by_cases h : iterate N c = N <;> simp [pixelBytes, h]

theorem flatMap_length_const {α β : Type} (l : List α) (f : α → List β) (k : ℕ)
    (h : ∀ a ∈ l, (f a).length = k) : (l.flatMap f).length = l.length * k := by
  induction l with
  | nil => simp
  | cons a rest ih =>
    rw [List.flatMap_cons, List.length_append, h a (by simp),
      ih (fun x hx => h x (by simp [hx])), List.length_cons]
    ring

theorem bodyList_length {W H : ℕ} {xmin xmax ymin ymax : ℚ} {N : ℕ} :
    (bodyList W H xmin xmax ymin ymax N).length = W * H * 3 := by
  have hrow : ∀ r ∈ List.range H,
      ((List.range W).flatMap fun col =>
        pixelBytes N (pixelPoint W H xmin xmax ymin ymax col r)).length
      = W * 3 := by
    intro r _
    rw [flatMap_length_const _ _ 3 (fun cpx _ => pixelBytes_length N _),
      List.length_range]
  rw [bodyList, flatMap_length_const _ _ (W * 3) hrow, List.length_range]
  ring

/-- Indexing into a concatenation of equal-length chunks over consecutive
indices: position k*i + j falls in chunk i at offset j. -/
theorem flatMap_range'_getElem {α : Type} (f : ℕ → List α) (k : ℕ)
    (hk : ∀ i, (f i).length = k) :
    ∀ (m a i j : ℕ), i < m → j < k →
      ((List.range' a m).flatMap f)[k * i + j]? = (f (a + i))[j]? := by
  intro m
  induction m with
  | zero =>
    intro a i j hi _
    exact absurd hi (Nat.not_lt_zero i)
  | succ m ih =>
    intro a i j hi hj
    rw [List.range'_succ, List.flatMap_cons]
    cases i with
    | zero =>
      rw [Nat.mul_zero, Nat.zero_add, List.getElem?_append, hk a,
        if_pos hj, Nat.add_zero]
    | succ i2 =>
      have he : k * (i2 + 1) + j = k * i2 + j + k := by ring
      have hge : (f a).length ≤ k * (i2 + 1) + j := by
        rw [hk a, he]
        exact Nat.le_add_left k (k * i2 + j)
      rw [List.getElem?_append_right hge, hk a, he, Nat.add_sub_cancel,
        ih (a + 1) i2 j (by omega) hj,
        show a + 1 + i2 = a + (i2 + 1) from by omega]

theorem flatMap_range_getElem {α : Type} (f : ℕ → List α) (k : ℕ)
    (hk : ∀ i, (f i).length = k) (n i j : ℕ) (hi : i < n) (hj : j < k) :
    ((List.range n).flatMap f)[k * i + j]? = (f i)[j]? := by
  rw [List.range_eq_range']
  have h := flatMap_range'_getElem f k hk n 0 i j hi hj
  rwa [Nat.zero_add] at h

/-- Claim C3: the stream starts with exactly the ASCII bytes of the literal
header text with the shipped dimensions substituted, and its total length is
the header length plus WIDTH * HEIGHT * 3. -/
theorem output_header_and_size :
    ∃ out, output = some out ∧
      out.take (header WIDTH HEIGHT).length
        = (("P6 2048 2048 255 ").toList).map Char.toNat ∧
      out.length = (header WIDTH HEIGHT).length + WIDTH * HEIGHT * 3 := by
  refine ⟨_, output_eq, ?_, ?_⟩
  · rw [List.take_left]
    decide
  · rw [List.length_append, bodyList_length]

/-- Claim C4: the three bytes of pixel (col, row) sit at offsets
header_length + 3*(row*WIDTH + col) + j, j < 3, and are the bytes of the
complex point built from the two mapper calls of main. -/
theorem pixel_byte_offsets (col row : ℕ) (hc : col < WIDTH) (hr : row < HEIGHT)
    (x y : ℚ)
    (hx : map_inclusive_ranges 0 ((WIDTH : ℚ) - 1) X_MIN X_MAX (col : ℚ)
        = some x)
    (hy : map_inclusive_ranges 0 ((HEIGHT : ℚ) - 1) Y_MIN Y_MAX (row : ℚ)
        = some y) :
    ∃ out, output = some out ∧ ∀ j, j < 3 →
      out[(header WIDTH HEIGHT).length + (3 * (row * WIDTH + col) + j)]?
        = (pixelBytes MAX_ITERATIONS ⟨x, y⟩)[j]? := by
  have hWne : ((WIDTH : ℚ) - 1) - 0 ≠ 0 := by
    rw [sub_zero]
    exact width_q_ne
  have hHne : ((HEIGHT : ℚ) - 1) - 0 ≠ 0 := by
    rw [sub_zero]
    exact height_q_ne
  rw [map_inclusive_ranges_eq hWne, Option.some_inj] at hx
  rw [map_inclusive_ranges_eq hHne, Option.some_inj] at hy
  refine ⟨_, output_eq, ?_⟩
  intro j hj
  rw [List.getElem?_append_right (Nat.le_add_right _ _), Nat.add_sub_cancel_left]
  have hrowlen : ∀ r, ((List.range WIDTH).flatMap fun cc =>
      pixelBytes MAX_ITERATIONS
        (pixelPoint WIDTH HEIGHT X_MIN X_MAX Y_MIN Y_MAX cc r)).length
      = WIDTH * 3 := by
    intro r
    rw [flatMap_length_const _ _ 3 (fun cpx _ => pixelBytes_length _ _),
      List.length_range]
  have hcb : 3 * col + j < WIDTH * 3 := by
    have hc2 : col < 2048 := hc
    have hW2 : WIDTH = 2048 := rfl
    rw [hW2]
    omega
  have hidx : 3 * (row * WIDTH + col) + j = (WIDTH * 3) * row + (3 * col + j) := by
    ring
  rw [hidx, bodyList,
    flatMap_range_getElem _ (WIDTH * 3) hrowlen HEIGHT row _ hr hcb,
    flatMap_range_getElem _ 3 (fun cc => pixelBytes_length _ _) WIDTH col j hc hj,
    show pixelPoint WIDTH HEIGHT X_MIN X_MAX Y_MIN Y_MAX col row = ⟨x, y⟩ from by
      rw [pixelPoint, hx, hy]]

/-- Witness for C4 at pixel (0, 0), mapped to the corner point -2 - 1.5i. -/
theorem pixel_byte_offsets_witness :
    (0 : ℕ) < WIDTH ∧ (0 : ℕ) < HEIGHT ∧
      map_inclusive_ranges 0 ((WIDTH : ℚ) - 1) X_MIN X_MAX ((0 : ℕ) : ℚ)
        = some (-2) ∧
      map_inclusive_ranges 0 ((HEIGHT : ℚ) - 1) Y_MIN Y_MAX ((0 : ℕ) : ℚ)
        = some (-1.5) ∧
      (∃ out, output = some out ∧ ∀ j, j < 3 →
        out[(header WIDTH HEIGHT).length + (3 * (0 * WIDTH + 0) + j)]?
          = (pixelBytes MAX_ITERATIONS ⟨-2, -1.5⟩)[j]?) := by
  have hx : map_inclusive_ranges 0 ((WIDTH : ℚ) - 1) X_MIN X_MAX ((0 : ℕ) : ℚ)
      = some (-2) := by
    norm_num [map_inclusive_ranges, WIDTH, X_MIN, X_MAX]
  have hy : map_inclusive_ranges 0 ((HEIGHT : ℚ) - 1) Y_MIN Y_MAX ((0 : ℕ) : ℚ)
      = some (-1.5) := by
    norm_num [map_inclusive_ranges, HEIGHT, Y_MIN, Y_MAX]
  exact ⟨by norm_num [WIDTH], by norm_num [HEIGHT], hx, hy,
    pixel_byte_offsets 0 0 (by norm_num [WIDTH]) (by norm_num [HEIGHT])
      (-2) (-1.5) hx hy⟩

/-- Claim C10: with the shipped budget of 255, every pixel byte is at most
254, both per pixel and across the whole pixel-data section of the stream;
the byte value 255 never occurs there. -/
theorem pixel_data_fits_byte :
    (∀ c : Cx, ∀ b ∈ pixelBytes MAX_ITERATIONS c, b ≤ 254) ∧
    (∀ out, output = some out →
      ∀ b ∈ out.drop (header WIDTH HEIGHT).length, b ≤ 254) := by
  have hpix : ∀ c : Cx, ∀ b ∈ pixelBytes MAX_ITERATIONS c, b ≤ 254 := by
    intro c b hb
    by_cases h : iterate MAX_ITERATIONS c = MAX_ITERATIONS
    · simp [pixelBytes, h] at hb
      omega
    · have hle : iterate MAX_ITERATIONS c ≤ MAX_ITERATIONS := iterate_le _ _
      simp only [MAX_ITERATIONS] at h hle hb ⊢
      simp [pixelBytes, h] at hb
      omega
  refine ⟨hpix, ?_⟩
  intro out hout b hb
  rw [output_eq, Option.some_inj] at hout
  rw [← hout, List.drop_left, bodyList] at hb
  obtain ⟨r, _, hb2⟩ := List.mem_flatMap.mp hb
  obtain ⟨cc, _, hb3⟩ := List.mem_flatMap.mp hb2
  exact hpix _ b hb3

/-- Witness for C10: the black origin pixel byte 0 and the first emitted
pixel byte 1 are both within range. -/
theorem pixel_data_fits_byte_witness : (0 : ℕ) ≤ 254 ∧ (1 : ℕ) ≤ 254 := by
  have h0 : (0 : ℕ) ≤ 254 :=
    pixel_data_fits_byte.1 ⟨0, 0⟩ 0 (by simp [pixelBytes, iterate_origin])
  have hesc : escapes ⟨-2, -1.5⟩ := by
    rw [escapes_iff]
    norm_num [Cx.normSq]
  have hiter1 : iterate MAX_ITERATIONS ⟨-2, -1.5⟩ = 1 := iterate_of_escapes hesc
  have hpoint : pixelPoint WIDTH HEIGHT X_MIN X_MAX Y_MIN Y_MAX 0 0
      = ⟨-2, -1.5⟩ := by
    norm_num [pixelPoint, mapTotal, WIDTH, HEIGHT, X_MIN, X_MAX, Y_MIN, Y_MAX]
  have hmem : (1 : ℕ)
      ∈ bodyList WIDTH HEIGHT X_MIN X_MAX Y_MIN Y_MAX MAX_ITERATIONS := by
    rw [bodyList]
    refine List.mem_flatMap.mpr ⟨0, by simp [List.mem_range, HEIGHT], ?_⟩
    refine List.mem_flatMap.mpr ⟨0, by simp [List.mem_range, WIDTH], ?_⟩
    rw [hpoint]
    simp [pixelBytes, MAX_ITERATIONS,
      show iterate 255 ⟨-2, -1.5⟩ = 1 from hiter1]
  have h1 : (1 : ℕ) ≤ 254 := by
    refine pixel_data_fits_byte.2 _ output_eq 1 ?_
    rw [List.drop_left]
    exact hmem
  exact ⟨h0, h1⟩
